import Mathlib

/-!
Verification development for the ring-kernel particle detector of the
`GranImage_Day3_ScikitParticleFinding2` notebook.

The notebook's pipeline is embedded shallowly over exact rationals:

* images, kernels and correlation maps are `List (List ℚ)` in row-major order
  (numpy 2-D float arrays; float arithmetic is idealised to `ℚ`);
* a Python function that can raise an exception is embedded with codomain
  `Except String _`; a function that cannot raise is a plain function;
* `ℚ` division by zero yields `0` where numpy float division by zero yields
  `nan`/`inf` with a warning (no exception).  No theorem below relies on the
  value of a division by zero, only on the fact that no exception is raised.
-/

namespace GranImage

abbrev Grid := List (List ℚ)

abbrev Coord := ℕ × ℕ

/-- Map a function over every entry of a grid (numpy elementwise op). -/
def gridMap (f : ℚ → ℚ) (g : Grid) : Grid := g.map (List.map f)

/-- All entries of a grid in row-major order (numpy `ravel`). -/
def gridFlat (g : Grid) : List ℚ := g.flatten

/-- Sum of all entries (`np.sum`). -/
def gridSum (g : Grid) : ℚ := (gridFlat g).sum

/-- Number of entries (`arr.size`). -/
def gridCount (g : Grid) : ℕ := (gridFlat g).length

/-- `np.mean`: sum of all entries divided by their number. -/
def gridMean (g : Grid) : ℚ := gridSum g / gridCount g

/-- Maximum of a list of rationals; `np.max` of the flattened array.
`np.max` raises on an empty array; the `0` returned here for `[]` is junk and
every theorem that uses `listMax` assumes a nonempty list. -/
def listMax : List ℚ → ℚ
  | [] => 0
  | a :: t => if t.isEmpty then a else max a (listMax t)

/-- `np.max` over a 2-D array. -/
def gridMax (g : Grid) : ℚ := listMax (gridFlat g)

/-- `np.max(np.abs(...))` over a 2-D array. -/
def gridMaxAbs (g : Grid) : ℚ := listMax ((gridFlat g).map (fun v => |v|))

/-- Entry `g[x][y]`, defaulting to `0` out of range (used only in range). -/
def gvalAt (g : Grid) (x y : ℕ) : ℚ := (g.getD x []).getD y 0

/-- Entry at a coordinate pair. -/
def gval (g : Grid) (c : Coord) : ℚ := gvalAt g c.1 c.2

/-- Build a square `K × K` grid from an entry function (the `np.indices`
based vectorised construction in the notebook). -/
def mkGrid (K : ℕ) (f : ℕ → ℕ → ℚ) : Grid :=
  (List.range K).map (fun i => (List.range K).map (f i))

/-! ## Kernel builder (`circkernel`)

Source (notebook cell defining `circkernel`):
```
def circkernel(R, w):
    kdim = int(np.ceil(2*(float(R)+0.5)))
    c = (kdim-1)/2.0
    kernel = np.zeros((kdim, kdim))
    x, y = np.indices((kdim, kdim))
    kernel = ((x-c)**2 + (y-c)**2 < R**2 ) &  ((x-c)**2 + (y-c)**2 > (R-w)**2 )
    return(kernel - np.mean(kernel), c)
```
`np.zeros((kdim, kdim))` raises `ValueError` when `kdim < 0`; that is the
only exception this function can raise, embedded as the `.error` branch.
There is no argument validation anywhere in the function. -/

/-- `kdim = int(np.ceil(2*(float(R)+0.5)))` as an integer (can be negative). -/
def kdimZ (R : ℚ) : ℤ := Int.ceil (2 * (R + 1/2))

/-- `kdim` as a natural number (meaningful when `0 ≤ kdimZ R`). -/
def kdimN (R : ℚ) : ℕ := (kdimZ R).toNat

/-- `c = (kdim-1)/2.0`. -/
def kcenter (R : ℚ) : ℚ := ((kdimN R : ℚ) - 1) / 2

/-- The annulus membership test `((x-c)**2 + (y-c)**2 < R**2) & ((x-c)**2 + (y-c)**2 > (R-w)**2)`
for the cell at row `i`, column `j`. -/
def ringMem (R w c : ℚ) (i j : ℕ) : Prop :=
  ((i : ℚ) - c) ^ 2 + ((j : ℚ) - c) ^ 2 < R ^ 2 ∧
  (R - w) ^ 2 < ((i : ℚ) - c) ^ 2 + ((j : ℚ) - c) ^ 2

instance (R w c : ℚ) (i j : ℕ) : Decidable (ringMem R w c i j) := by
  unfold ringMem; infer_instance

/-- The boolean membership grid cast to real: entry `1` inside the ring,
`0` outside. -/
def kindicator (R w : ℚ) (i j : ℕ) : ℚ :=
  if ringMem R w (kcenter R) i j then 1 else 0

/-- `np.mean(kernel)` of the boolean membership grid: sum over `kdim²`. -/
def kmean (R w : ℚ) : ℚ :=
  gridSum (mkGrid (kdimN R) (kindicator R w)) / ((kdimN R : ℚ) * (kdimN R : ℚ))

/-- The `circkernel(R, w)` function of the notebook. -/
def circkernel (R w : ℚ) : Except String (Grid × ℚ) :=
  if kdimZ R < 0 then .error "negative dimensions are not allowed"
  else .ok (gridMap (fun v => v - kmean R w) (mkGrid (kdimN R) (kindicator R w)), kcenter R)

/-! ## List and grid helper lemmas -/

theorem sum_map_sub_const (l : List ℚ) (c : ℚ) :
    (l.map (fun x => x - c)).sum = l.sum - l.length * c := by
  induction l with
  | nil => simp
  | cons a t ih => simp [ih]; ring

theorem sum_map_div (l : List ℚ) (c : ℚ) :
    (l.map (fun x => x / c)).sum = l.sum / c := by
  induction l with
  | nil => simp
  | cons a t ih => simp [ih, add_div]

theorem gridFlat_gridMap (f : ℚ → ℚ) (g : Grid) :
    gridFlat (gridMap f g) = (gridFlat g).map f := by
  induction g with
  | nil => rfl
  | cons r t ih => simp [gridFlat, gridMap] at ih ⊢

theorem gridMap_mkGrid (h : ℚ → ℚ) (K : ℕ) (f : ℕ → ℕ → ℚ) :
    gridMap h (mkGrid K f) = mkGrid K (fun i j => h (f i j)) := by
  simp [gridMap, mkGrid, List.map_map]

theorem length_mkGrid (K : ℕ) (f : ℕ → ℕ → ℚ) : (mkGrid K f).length = K := by
  simp [mkGrid]

theorem gridCount_mkGrid (K : ℕ) (f : ℕ → ℕ → ℚ) :
    gridCount (mkGrid K f) = K * K := by
  simp [gridCount, gridFlat, mkGrid, List.length_flatten, List.map_map]
  simp [Function.comp_def]

theorem gridSum_sub_const (g : Grid) (c : ℚ) :
    gridSum (gridMap (fun v => v - c) g) = gridSum g - gridCount g * c := by
  simp [gridSum, gridFlat_gridMap, gridCount, sum_map_sub_const]

theorem gvalAt_mkGrid (K : ℕ) (f : ℕ → ℕ → ℚ) (i j : ℕ)
    (hi : i < K) (hj : j < K) : gvalAt (mkGrid K f) i j = f i j := by
  have h1 : (mkGrid K f).getD i [] = (List.range K).map (f i) := by
    rw [mkGrid, List.getD_eq_getElem _ _ (by simpa using hi)]
    simp
  rw [gvalAt, h1, List.getD_eq_getElem _ _ (by simpa using hj)]
  simp

/-! ## C1: the ring kernel sums to zero -/

theorem kdimN_pos (R : ℚ) (hR : 0 < R) : 0 < kdimN R := by
  have h1 : (0 : ℤ) < kdimZ R := by
    rw [kdimZ, Int.lt_ceil]
    push_cast
    linarith
  simp [kdimN]
  omega

theorem circkernel_ok (R w : ℚ) (hR : -1 < R) :
    circkernel R w =
      .ok (gridMap (fun v => v - kmean R w) (mkGrid (kdimN R) (kindicator R w)), kcenter R) := by
  have h1 : ¬ kdimZ R < 0 := by
    rw [kdimZ, not_lt]
    rw [show (0 : ℤ) = -1 + 1 by norm_num, Int.add_one_le_iff, Int.lt_ceil]
    push_cast
    linarith
  simp [circkernel, h1]

/-- Claim C1: for every valid radius `R > 0` and ring width `0 < w ≤ R`, the
ring kernel returned by `circkernel` sums to zero: it is the boolean
annulus-membership grid minus its own mean, so the sum of all its entries is
exactly `0` in exact arithmetic. -/
theorem circkernel_sum_zero (R w : ℚ) (hR : 0 < R) (hw : 0 < w) (hwR : w ≤ R) :
    ∃ g c, circkernel R w = .ok (g, c) ∧ gridSum g = 0 := by
  refine ⟨_, _, circkernel_ok R w (by linarith), ?_⟩
  rw [gridSum_sub_const, gridCount_mkGrid, kmean]
  have hK : ((kdimN R : ℚ) * (kdimN R : ℚ)) ≠ 0 := by
    have := kdimN_pos R hR
    positivity
  push_cast
  field_simp

/-- Witness for C1 at `R = 2`, `w = 1`. -/
theorem circkernel_sum_zero_witness :
    (0 : ℚ) < 2 ∧ (0 : ℚ) < 1 ∧ (1 : ℚ) ≤ 2 ∧
    ∃ g c, circkernel 2 1 = .ok (g, c) ∧ gridSum g = 0 :=
  ⟨by norm_num, by norm_num, by norm_num,
    circkernel_sum_zero 2 1 (by norm_num) (by norm_num) (by norm_num)⟩

/-! ## Image normalizer

Source (notebook cells preparing the image):
```
image = image - np.mean(image)
image = image/np.max(image)
```
On a constant nonempty image neither line raises: the divisor
`np.max(image - np.mean(image))` is `0.0` and the division produces `nan`
values with a runtime warning, still returning an array.  The single
raising path is a zero-size image: `np.mean` of it only warns (`nan`), but
`np.max` of the zero-size subtracted array raises a `ValueError`, modelled
by the `.error` branch. -/

/-- The two normalization lines of the notebook. -/
def normalize (img : Grid) : Except String Grid :=
  let sub := gridMap (fun v => v - gridMean img) img
  if gridFlat sub = [] then
    .error "zero-size array to reduction operation maximum which has no identity"
  else
    .ok (gridMap (fun v => v / gridMax sub) sub)

/-- An image with at least two different entries (not constant). -/
def nondegenerate (img : Grid) : Prop :=
  ∃ a ∈ gridFlat img, ∃ b ∈ gridFlat img, a ≠ b

/-! ## listMax lemmas -/

theorem listMax_cons (a : ℚ) (t : List ℚ) (h : t ≠ []) :
    listMax (a :: t) = max a (listMax t) := by
  cases t with
  | nil => exact absurd rfl h
  | cons b u => simp [listMax]

theorem le_listMax (a : ℚ) (l : List ℚ) (h : a ∈ l) : a ≤ listMax l := by
  induction l with
  | nil => simp at h
  | cons x t ih =>
    cases t with
    | nil => simp at h; simp [listMax, h]
    | cons y u =>
      rw [listMax_cons x (y :: u) (by simp)]
      rcases List.mem_cons.mp h with h1 | h1
      · exact h1 ▸ le_max_left _ _
      · exact le_trans (ih h1) (le_max_right _ _)

theorem listMax_map_sub (l : List ℚ) (c : ℚ) (h : l ≠ []) :
    listMax (l.map (fun x => x - c)) = listMax l - c := by
  induction l with
  | nil => exact absurd rfl h
  | cons a t ih =>
    cases t with
    | nil => simp [listMax]
    | cons b u =>
      rw [List.map_cons, listMax_cons a (b :: u) (by simp),
        listMax_cons (a - c) _ (by simp), ih (by simp)]
      exact max_sub_sub_right a (listMax (b :: u)) c

theorem listMax_map_div (l : List ℚ) (c : ℚ) (h : l ≠ []) (hc : 0 < c) :
    listMax (l.map (fun x => x / c)) = listMax l / c := by
  induction l with
  | nil => exact absurd rfl h
  | cons a t ih =>
    cases t with
    | nil => simp [listMax]
    | cons b u =>
      rw [List.map_cons, listMax_cons a (b :: u) (by simp),
        listMax_cons (a / c) _ (by simp), ih (by simp)]
      exact max_div_div_right hc.le a (listMax (b :: u))

theorem sum_le_length_mul (l : List ℚ) (M : ℚ) (h : ∀ x ∈ l, x ≤ M) :
    l.sum ≤ l.length * M := by
  induction l with
  | nil => simp
  | cons a t ih =>
    have h1 : a ≤ M := h a (by simp)
    have h2 : t.sum ≤ t.length * M := ih (fun x hx => h x (by simp [hx]))
    simp only [List.sum_cons, List.length_cons]
    push_cast
    linarith

theorem sum_lt_length_mul (l : List ℚ) (M : ℚ) (h : ∀ x ∈ l, x ≤ M)
    (hs : ∃ x ∈ l, x < M) : l.sum < l.length * M := by
  induction l with
  | nil => simp at hs
  | cons a t ih =>
    obtain ⟨x, hx, hxM⟩ := hs
    rcases List.mem_cons.mp hx with h1 | h1
    · have h2 : t.sum ≤ t.length * M := sum_le_length_mul t M (fun y hy => h y (by simp [hy]))
      simp only [List.sum_cons, List.length_cons]
      push_cast
      subst h1
      linarith
    · have h2 : t.sum < t.length * M := ih (fun y hy => h y (by simp [hy])) ⟨x, h1, hxM⟩
      have h3 : a ≤ M := h a (by simp)
      simp only [List.sum_cons, List.length_cons]
      push_cast
      linarith

theorem mean_lt_listMax (l : List ℚ) (h : ∃ a ∈ l, ∃ b ∈ l, a ≠ b) :
    l.sum / l.length < listMax l := by
  obtain ⟨a, ha, b, hb, hab⟩ := h
  have hne : l ≠ [] := List.ne_nil_of_mem ha
  have hn : (0 : ℚ) < l.length := by
    have := List.length_pos.mpr hne
    exact_mod_cast this
  have hstrict : ∃ x ∈ l, x < listMax l := by
    rcases lt_or_gt_of_ne hab with h1 | h1
    · exact ⟨a, ha, lt_of_lt_of_le h1 (le_listMax b l hb)⟩
    · exact ⟨b, hb, lt_of_lt_of_le h1 (le_listMax a l ha)⟩
  have h2 := sum_lt_length_mul l (listMax l) (fun x hx => le_listMax x l hx) hstrict
  rw [div_lt_iff₀ hn]
  linarith [h2]

theorem gridMap_sub_zero (g : Grid) : gridMap (fun v => v - 0) g = g := by
  simp [gridMap]

theorem gridMap_div_one (g : Grid) : gridMap (fun v => v / 1) g = g := by
  simp [gridMap]

/-! ## C3: behaviour of the normalizer on zero-variance images -/

/-- Counterexample to claim C3: on the all-zero image the normalization step
does not raise any error; it performs the division regardless and returns a
grid.  (In numpy the division is `0.0/0.0` producing `nan` entries with a
runtime warning — still a returned grid, not an exception; the notebook
defines no `EmptyImageError`.) -/
theorem normalize_zero_image_no_error :
    ∃ g, normalize [[0, 0], [0, 0]] = .ok g := by
  have hne : gridFlat (gridMap (fun v => v - gridMean [[0, 0], [0, 0]])
      [[0, 0], [0, 0]]) ≠ [] := by
    rw [gridFlat_gridMap]
    simp [gridFlat]
  exact ⟨_, by simp only [normalize, if_neg hne]; rfl⟩

/-- Claim C3 (amended): on every nonempty image — in particular every
nonempty constant image — the normalization step raises no error: the
division by the possibly-zero maximum is performed unconditionally and a
grid is returned (`nan`-filled in numpy when the variance is zero).  The
only raising path of the two lines is numpy's zero-size-array `ValueError`
in `np.max`, which is unrelated to zero variance. -/
theorem normalize_never_raises (img : Grid) (h : gridFlat img ≠ []) :
    ∃ g, normalize img = .ok g := by
  have hne : gridFlat (gridMap (fun v => v - gridMean img) img) ≠ [] := by
    rw [gridFlat_gridMap]
    simpa using h
  exact ⟨_, by simp only [normalize, if_neg hne]; rfl⟩

/-- Witness for the amended C3 at the all-zero `2 × 2` image. -/
theorem normalize_never_raises_witness :
    gridFlat ([[0, 0], [0, 0]] : Grid) ≠ [] ∧
    ∃ g, normalize [[0, 0], [0, 0]] = .ok g := by
  have h : gridFlat ([[0, 0], [0, 0]] : Grid) ≠ [] := by simp [gridFlat]
  exact ⟨h, normalize_never_raises [[0, 0], [0, 0]] h⟩

/-! ## C8: the normalizer is idempotent on non-degenerate images -/

/-- Claim C8: the image normalizer is idempotent: for every non-degenerate
(non-constant) image, `normalize (normalize x) = normalize x`, where
`normalize` subtracts the mean and divides by the post-subtraction maximum. -/
theorem normalize_idempotent (img : Grid) (h : nondegenerate img) :
    ∃ r, normalize img = .ok r ∧ normalize r = .ok r := by
  obtain ⟨a, ha, b, hb, hab⟩ := h
  have hne : gridFlat img ≠ [] := List.ne_nil_of_mem ha
  have hn : ((gridFlat img).length : ℚ) ≠ 0 := by
    have := List.length_pos.mpr hne
    positivity
  set μ := gridMean img with hμ
  set sub := gridMap (fun v => v - μ) img with hsub
  set M := gridMax sub with hM
  have hflat_sub : gridFlat sub = (gridFlat img).map (fun v => v - μ) :=
    gridFlat_gridMap _ img
  have hMval : M = listMax (gridFlat img) - μ := by
    rw [hM, gridMax, hflat_sub, listMax_map_sub _ _ hne]
  have hMpos : 0 < M := by
    rw [hMval]
    have := mean_lt_listMax (gridFlat img) ⟨a, ha, b, hb, hab⟩
    rw [hμ, gridMean, gridSum, gridCount]
    linarith [this]
  set r := gridMap (fun v => v / M) sub with hr
  have hsubne : gridFlat (gridMap (fun v => v - gridMean img) img) ≠ [] := by
    rw [gridFlat_gridMap]
    simpa using hne
  have hok : normalize img = .ok r := by
    simp only [normalize, if_neg hsubne]
  refine ⟨r, hok, ?_⟩
  have hflat_r : gridFlat r = ((gridFlat img).map (fun v => v - μ)).map (fun v => v / M) := by
    rw [hr, gridFlat_gridMap, hflat_sub]
  have hsum_r : gridSum r = 0 := by
    rw [gridSum, hflat_r, sum_map_div, sum_map_sub_const]
    rw [hμ, gridMean, gridSum, gridCount]
    field_simp
  have hmean_r : gridMean r = 0 := by
    rw [gridMean, hsum_r, zero_div]
  have hsub_r : gridMap (fun v => v - gridMean r) r = r := by
    rw [hmean_r]
    exact gridMap_sub_zero r
  have hmax_r : gridMax r = 1 := by
    rw [gridMax, hflat_r, listMax_map_div _ _ (by simpa using hne) hMpos,
      listMax_map_sub _ _ hne, ← hMval, div_self (ne_of_gt hMpos)]
  have hflat_r_ne : gridFlat r ≠ [] := by
    rw [hflat_r]
    simpa using hne
  simp only [normalize, hsub_r, hmax_r, if_neg hflat_r_ne]
  rw [gridMap_div_one]

/-- Witness for C8 at the image `[[0,1],[0,0]]`. -/
theorem normalize_idempotent_witness :
    nondegenerate [[0, 1], [0, 0]] ∧
    ∃ r, normalize [[0, 1], [0, 0]] = .ok r ∧ normalize r = .ok r :=
  ⟨⟨0, by decide, 1, by decide, by decide⟩,
    normalize_idempotent [[0, 1], [0, 0]] ⟨0, by decide, 1, by decide, by decide⟩⟩

/-- Decidable equality for the `Except` results of the embedded functions. -/
instance instDecEqExcept {ε α : Type} [DecidableEq ε] [DecidableEq α] :
    DecidableEq (Except ε α) := fun x y =>
  match x, y with
  | .error a, .error b =>
    if h : a = b then .isTrue (by rw [h]) else .isFalse (by intro hc; cases hc; exact h rfl)
  | .ok a, .ok b =>
    if h : a = b then .isTrue (by rw [h]) else .isFalse (by intro hc; cases hc; exact h rfl)
  | .error a, .ok b => .isFalse (fun hc => Except.noConfusion hc)
  | .ok a, .error b => .isFalse (fun hc => Except.noConfusion hc)

/-! ## C5: circkernel performs no argument validation -/

/-- Counterexample to claim C5: `circkernel` does not reject invalid
arguments.  At `R = 0` (violating `R > 0`) and `w = 1` (violating `w ≤ R`)
it raises no error at all: it returns the `1 × 1` zero kernel with
center `0`. -/
theorem circkernel_accepts_zero_radius : circkernel 0 1 = .ok ([[0]], 0) := by
  have hz : kdimZ 0 = 1 := by rw [kdimZ]; norm_num
  have hN : kdimN 0 = 1 := by rw [kdimN, hz]; rfl
  have hc0 : kcenter 0 = 0 := by rw [kcenter, hN]; norm_num
  have hind : kindicator 0 1 0 0 = 0 := by
    rw [kindicator, if_neg]
    simp [ringMem, hc0]
  have hgrid : mkGrid 1 (kindicator 0 1) = [[0]] := by
    rw [mkGrid]
    simp [List.range_succ, hind]
  have hmean : kmean 0 1 = 0 := by
    rw [kmean, hN, hgrid]
    simp [gridSum, gridFlat]
  rw [circkernel, if_neg (by rw [hz]; norm_num), hN, hgrid, hmean, hc0]
  simp [gridMap]

/-- Claim C5 (amended): `circkernel` performs no explicit argument
validation.  For every `R > -1` — which includes every `R ≤ 0` above `-1`
and every `w > R` — it succeeds and returns a kernel; its only failure mode
is the `ValueError` of `np.zeros` for a negative computed dimension
(`R ≤ -1`), not an `InvalidParameter` check.  As a Lean function it is
deterministic and side-effect free. -/
theorem circkernel_no_param_check (R w : ℚ) (hR : -1 < R) :
    ∃ g c, circkernel R w = .ok (g, c) :=
  ⟨_, _, circkernel_ok R w hR⟩

/-- Witness for the amended C5 at the invalid arguments `R = 0`, `w = 1`. -/
theorem circkernel_no_param_check_witness :
    (-1 : ℚ) < 0 ∧ ∃ g c, circkernel 0 1 = .ok (g, c) :=
  ⟨by norm_num, circkernel_no_param_check 0 1 (by norm_num)⟩

/-! ## C6: kernel geometry -/

/-- Counterexample to claim C6: the kernel dimension is not always odd.
At the valid parameters `R = 3/2`, `w = 1/2` the grid dimension is
`K = ceil(2*(R+0.5)) = 4`, which is even. -/
theorem circkernel_dim_not_odd :
    (circkernel (3/2) (1/2)).map (fun p => p.1.length) = .ok 4 ∧ ¬ Odd 4 := by
  constructor
  · have hz : kdimZ (3/2) = 4 := by rw [kdimZ]; norm_num
    have hN : kdimN (3/2) = 4 := by rw [kdimN, hz]; rfl
    rw [circkernel, if_neg (by rw [hz]; norm_num)]
    simp [Except.map, gridMap, mkGrid, hN]
  · decide

theorem kdimN_cast (R : ℚ) (hR : 0 < R) : ((kdimN R : ℤ)) = Int.ceil (2 * (R + 1/2)) := by
  rw [kdimN, Int.toNat_of_nonneg, kdimZ]
  have h1 : (0 : ℤ) < kdimZ R := by
    rw [kdimZ, Int.lt_ceil]
    push_cast
    linarith
  exact h1.le

/-- Claim C6 (amended): for every valid radius the kernel grid is square
with dimension `K = ceil(2*(R+0.5))` (odd or even as the ceiling falls),
center `c = (K-1)/2`, and a cell `(i,j)` belongs to the ring (entry
`1 - mean` rather than `-mean`) exactly when
`(i-c)^2 + (j-c)^2 < R^2` and `(i-c)^2 + (j-c)^2 > (R-w)^2`. -/
theorem circkernel_shape_center_membership (R w : ℚ) (hR : 0 < R) :
    ∃ g, circkernel R w = .ok (g, kcenter R) ∧
      (g.length : ℤ) = Int.ceil (2 * (R + 1/2)) ∧
      (∀ row ∈ g, row.length = g.length) ∧
      kcenter R = ((g.length : ℚ) - 1) / 2 ∧
      ∀ i j, i < g.length → j < g.length →
        (gvalAt g i j + kmean R w = 1 ↔
          (((i : ℚ) - kcenter R) ^ 2 + ((j : ℚ) - kcenter R) ^ 2 < R ^ 2 ∧
           (R - w) ^ 2 < ((i : ℚ) - kcenter R) ^ 2 + ((j : ℚ) - kcenter R) ^ 2)) := by
  refine ⟨_, circkernel_ok R w (by linarith), ?_, ?_, ?_, ?_⟩
  · rw [gridMap_mkGrid, length_mkGrid]
    exact kdimN_cast R hR
  · intro row hrow
    rw [gridMap_mkGrid] at hrow
    rw [gridMap_mkGrid, length_mkGrid]
    rw [mkGrid] at hrow
    obtain ⟨i, _, hrw⟩ := List.mem_map.mp hrow
    simp [← hrw]
  · rw [gridMap_mkGrid, length_mkGrid, kcenter]
  · intro i j hi hj
    rw [gridMap_mkGrid] at hi hj ⊢
    rw [length_mkGrid] at hi hj
    rw [gvalAt_mkGrid _ _ i j hi hj, kindicator]
    by_cases hm : ringMem R w (kcenter R) i j
    · simp only [if_pos hm, sub_add_cancel]
      exact ⟨fun _ => hm, fun _ => trivial⟩
    · simp only [if_neg hm, zero_sub, neg_add_cancel]
      constructor
      · intro h0
        exact absurd h0 (by norm_num)
      · intro hmem
        exact absurd hmem hm

/-- Witness for the amended C6 at `R = 2`, `w = 1`. -/
theorem circkernel_shape_center_membership_witness :
    (0 : ℚ) < 2 ∧
    ∃ g, circkernel 2 1 = .ok (g, kcenter 2) ∧
      (g.length : ℤ) = Int.ceil (2 * ((2 : ℚ) + 1/2)) ∧
      (∀ row ∈ g, row.length = g.length) ∧
      kcenter 2 = ((g.length : ℚ) - 1) / 2 ∧
      ∀ i j, i < g.length → j < g.length →
        (gvalAt g i j + kmean 2 1 = 1 ↔
          (((i : ℚ) - kcenter 2) ^ 2 + ((j : ℚ) - kcenter 2) ^ 2 < (2 : ℚ) ^ 2 ∧
           ((2 : ℚ) - 1) ^ 2 < ((i : ℚ) - kcenter 2) ^ 2 + ((j : ℚ) - kcenter 2) ^ 2)) :=
  ⟨by norm_num, circkernel_shape_center_membership 2 1 (by norm_num)⟩

/-! ## C9: kernel symmetry -/

theorem ringMem_swap (R w c : ℚ) (i j : ℕ) :
    ringMem R w c i j ↔ ringMem R w c j i := by
  unfold ringMem
  rw [add_comm (((i : ℚ) - c) ^ 2)]

theorem cast_flip (K j : ℕ) (hj : j < K) :
    ((K - 1 - j : ℕ) : ℚ) = (K : ℚ) - 1 - j := by
  have h1 : 1 + j ≤ K := by omega
  rw [Nat.sub_sub, Nat.cast_sub h1]
  push_cast
  ring

theorem ringMem_flip (R w : ℚ) (K : ℕ) (hc : kcenter R = ((K : ℚ) - 1) / 2)
    (i j : ℕ) (hj : j < K) :
    ringMem R w (kcenter R) i (K - 1 - j) ↔ ringMem R w (kcenter R) i j := by
  have hsq : (((K - 1 - j : ℕ) : ℚ) - kcenter R) ^ 2 = ((j : ℚ) - kcenter R) ^ 2 := by
    rw [cast_flip K j hj, hc]
    ring
  unfold ringMem
  rw [hsq]

/-- Claim C9: for every valid `(R, w)` the ring kernel grid is invariant
under transposition, horizontal and vertical mirror flips, and 90-degree
rotation (`(i,j) ↦ (j, K-1-i)`): each maps the grid to itself cell for
cell. -/
theorem circkernel_symmetric (R w : ℚ) (hR : 0 < R) (hw : 0 < w) (hwR : w ≤ R) :
    ∃ g, circkernel R w = .ok (g, kcenter R) ∧
      ∀ i j, i < kdimN R → j < kdimN R →
        gvalAt g i j = gvalAt g j i ∧
        gvalAt g i j = gvalAt g i (kdimN R - 1 - j) ∧
        gvalAt g i j = gvalAt g (kdimN R - 1 - i) j ∧
        gvalAt g i j = gvalAt g j (kdimN R - 1 - i) := by
  refine ⟨_, circkernel_ok R w (by linarith), ?_⟩
  intro i j hi hj
  rw [gridMap_mkGrid]
  have hK : 0 < kdimN R := kdimN_pos R hR
  have hc : kcenter R = ((kdimN R : ℚ) - 1) / 2 := rfl
  have hflipj : kdimN R - 1 - j < kdimN R := by omega
  have hflipi : kdimN R - 1 - i < kdimN R := by omega
  have hswap : ∀ i' j', i' < kdimN R → j' < kdimN R →
      gvalAt (mkGrid (kdimN R) (fun i j => kindicator R w i j - kmean R w)) i' j' =
        kindicator R w i' j' - kmean R w := by
    intro i' j' hi' hj'
    exact gvalAt_mkGrid _ _ i' j' hi' hj'
  rw [hswap i j hi hj, hswap j i hj hi, hswap i _ hi hflipj, hswap _ j hflipi hj,
    hswap j _ hj hflipi]
  refine ⟨?_, ?_, ?_, ?_⟩
  · rw [sub_left_inj, kindicator, kindicator]
    exact if_congr (ringMem_swap R w (kcenter R) i j) rfl rfl
  · rw [sub_left_inj, kindicator, kindicator]
    exact if_congr (ringMem_flip R w (kdimN R) hc i j hj).symm rfl rfl
  · rw [sub_left_inj, kindicator, kindicator]
    refine if_congr ?_ rfl rfl
    rw [ringMem_swap R w (kcenter R) i j,
      ← ringMem_flip R w (kdimN R) hc j i hi, ringMem_swap R w (kcenter R) j _]
  · rw [sub_left_inj, kindicator, kindicator]
    refine if_congr ?_ rfl rfl
    rw [ringMem_swap R w (kcenter R) i j,
      ← ringMem_flip R w (kdimN R) hc j i hi]

/-- Witness for C9 at `R = 2`, `w = 1`. -/
theorem circkernel_symmetric_witness :
    (0 : ℚ) < 2 ∧ (0 : ℚ) < 1 ∧ (1 : ℚ) ≤ 2 ∧
    ∃ g, circkernel 2 1 = .ok (g, kcenter 2) ∧
      ∀ i j, i < kdimN 2 → j < kdimN 2 →
        gvalAt g i j = gvalAt g j i ∧
        gvalAt g i j = gvalAt g i (kdimN 2 - 1 - j) ∧
        gvalAt g i j = gvalAt g (kdimN 2 - 1 - i) j ∧
        gvalAt g i j = gvalAt g j (kdimN 2 - 1 - i) :=
  ⟨by norm_num, by norm_num, by norm_num,
    circkernel_symmetric 2 1 (by norm_num) (by norm_num) (by norm_num)⟩

/-! ## Correlator

Source (inside `convcirc`):
```
conv = ndimage.convolve(image, ckern, mode='constant', cval=0.0)
conv = conv/np.max(conv)
```
`scipy.ndimage.convolve` computes `C[x,y] = sum_(i,j) W[i,j] * I[x + K/2 - i, y + K/2 - j]`
with zero padding outside the image (`mode='constant', cval=0.0`); `K/2`
(floor division) is the anchor scipy uses for convolution with both odd and
even kernel sizes.  The output has the shape of the input. -/

/-- `image[i, j]` with `mode='constant', cval=0.0`: zero outside bounds. -/
def imgAt (g : Grid) (i j : ℤ) : ℚ :=
  if 0 ≤ i ∧ i < (g.length : ℤ) ∧ 0 ≤ j ∧ j < ((g.getD i.toNat []).length : ℤ) then
    gvalAt g i.toNat j.toNat
  else 0

/-- `ndimage.convolve(image, kern, mode='constant', cval=0.0)`. -/
def convolve2d (img kern : Grid) : Grid :=
  (List.range img.length).map fun (x : ℕ) =>
    (List.range ((img.getD x []).length)).map fun (y : ℕ) =>
      ((List.range kern.length).map fun (i : ℕ) =>
        ((List.range kern.length).map fun (j : ℕ) =>
          gvalAt kern i j *
            imgAt img ((x : ℤ) + (kern.length / 2 : ℕ) - (i : ℤ))
              ((y : ℤ) + (kern.length / 2 : ℕ) - (j : ℤ))).sum).sum

/-- The correlation-and-normalize step of `convcirc`: convolve, then divide
by the maximum of the convolution output. -/
def correlateNorm (image kern : Grid) : Grid :=
  gridMap (fun v => v / gridMax (convolve2d image kern)) (convolve2d image kern)

theorem length_convolve2d (img kern : Grid) :
    (convolve2d img kern).length = img.length := by
  simp [convolve2d]

theorem map_length_range_getD (img : Grid) :
    (List.range img.length).map (fun x => (img.getD x []).length) =
      img.map List.length := by
  apply List.ext_getElem
  · simp
  · intro i h1 h2
    rw [List.getElem_map, List.getElem_range, List.getElem_map,
      List.getD_eq_getElem _ _ (by simpa using h2)]

theorem map_length_convolve2d (img kern : Grid) :
    (convolve2d img kern).map List.length = img.map List.length := by
  rw [convolve2d, List.map_map, ← map_length_range_getD img]
  apply List.map_congr_left
  intro x _
  rw [Function.comp_apply, List.length_map, List.length_range]

/-! ## C4: dimensions and maximum of the correlation map -/

/-- Counterexample to claim C4: after the `conv/np.max(conv)` step the
maximum absolute value of the correlation map need not be `1`.  With the
ring kernel `circkernel(1.5, 1.5)` and the image `[[1, -2]]`, the convolution
is `[[-3/4, -7/4]]`, its maximum is negative (`-3/4`), and the normalized map
`[[1, 7/3]]` has maximum absolute value `7/3 ≠ 1`. -/
theorem correlateNorm_maxabs_ne_one :
    ∃ kern c, circkernel (3/2) (3/2) = .ok (kern, c) ∧
      gridMaxAbs (correlateNorm [[1, -2]] kern) = 7/3 ∧ (7/3 : ℚ) ≠ 1 := by
  have hz : kdimZ (3/2) = 4 := by rw [kdimZ]; norm_num
  have hN : kdimN (3/2) = 4 := by rw [kdimN, hz]; rfl
  have hc : kcenter (3/2) = 3/2 := by rw [kcenter, hN]; norm_num
  have hgrid : mkGrid 4 (kindicator (3/2) (3/2)) =
      [[0, 0, 0, 0], [0, 1, 1, 0], [0, 1, 1, 0], [0, 0, 0, 0]] := by
    rw [mkGrid]
    norm_num [List.range_succ, kindicator, ringMem, hc]
  have hmean : kmean (3/2) (3/2) = 1/4 := by
    rw [kmean, hN, hgrid]
    norm_num [gridSum, gridFlat]
  have hkern : circkernel (3/2) (3/2) =
      .ok ([[-1/4, -1/4, -1/4, -1/4], [-1/4, 3/4, 3/4, -1/4],
            [-1/4, 3/4, 3/4, -1/4], [-1/4, -1/4, -1/4, -1/4]], 3/2) := by
    rw [circkernel, if_neg (by rw [hz]; norm_num), hN, hgrid, hmean]
    norm_num [gridMap, hc]
  refine ⟨_, _, hkern, ?_, by norm_num⟩
  have hconv : convolve2d [[1, -2]]
      [[-1/4, -1/4, -1/4, -1/4], [-1/4, 3/4, 3/4, -1/4],
       [-1/4, 3/4, 3/4, -1/4], [-1/4, -1/4, -1/4, -1/4]] = [[-3/4, -7/4]] := by
    norm_num [convolve2d, imgAt, gvalAt, List.range_succ, List.getD_eq_getElem?_getD,
      List.getElem?_cons_zero, List.getElem?_cons_succ, Int.toNat_ofNat,
      show Int.toNat 2 = 2 from rfl, show Int.toNat 3 = 3 from rfl]
  rw [correlateNorm, hconv]
  have hmax : gridMax [[-3/4, -7/4]] = -3/4 := by
    norm_num [gridMax, gridFlat, listMax, max_def]
  rw [hmax]
  have habs : |(7 : ℚ)/3| = 7/3 := abs_of_pos (by norm_num)
  norm_num [gridMap, gridMaxAbs, gridFlat, listMax, max_def, habs]

/-- Claim C4 (amended): the correlation map has the same dimensions as the
input image, and — provided the convolution output has a positive maximum —
dividing by `np.max(conv)` makes the maximum value (not the maximum absolute
value) equal to `1`. -/
theorem correlateNorm_dims_and_max (image kern : Grid)
    (hne : gridFlat (convolve2d image kern) ≠ [])
    (hpos : 0 < gridMax (convolve2d image kern)) :
    (correlateNorm image kern).length = image.length ∧
    (correlateNorm image kern).map List.length = image.map List.length ∧
    gridMax (correlateNorm image kern) = 1 := by
  refine ⟨?_, ?_, ?_⟩
  · rw [correlateNorm]
    simp [gridMap, length_convolve2d]
  · rw [correlateNorm]
    rw [gridMap, List.map_map]
    rw [← map_length_convolve2d image kern]
    apply List.map_congr_left
    intro row _
    simp
  · rw [correlateNorm, gridMax, gridFlat_gridMap,
      listMax_map_div _ _ hne hpos]
    exact div_self (ne_of_gt hpos)

/-- Witness for the amended C4 at `image = [[1, 0]]`, `kern = [[1]]`. -/
theorem correlateNorm_dims_and_max_witness :
    gridFlat (convolve2d [[1, 0]] [[1]]) ≠ [] ∧
    0 < gridMax (convolve2d [[1, 0]] [[1]]) ∧
    ((correlateNorm [[1, 0]] [[1]]).length = ([[1, 0]] : Grid).length ∧
     (correlateNorm [[1, 0]] [[1]]).map List.length = ([[1, 0]] : Grid).map List.length ∧
     gridMax (correlateNorm [[1, 0]] [[1]]) = 1) := by
  have hconv : convolve2d [[1, 0]] [[1]] = [[1, 0]] := by
    norm_num [convolve2d, imgAt, gvalAt, List.range_succ]
  have h1 : gridFlat (convolve2d [[1, 0]] [[1]]) ≠ [] := by
    rw [hconv]; decide
  have h2 : 0 < gridMax (convolve2d [[1, 0]] [[1]]) := by
    rw [hconv]
    norm_num [gridMax, gridFlat, listMax, max_def]
  exact ⟨h1, h2, correlateNorm_dims_and_max [[1, 0]] [[1]] h1 h2⟩

/-! ## Peak extraction (`skimage.feature.peak_local_max`)

`convcirc` calls `peak_local_max(conv, min_distance=int(np.ceil(R)), threshold_abs=thresh)`.
With its default arguments this:

1. keeps the pixels that equal the maximum of their `(2*md+1) × (2*md+1)`
   square window (maximum filter) — for every pixel retained after border
   exclusion this equals the maximum over the in-range part of the window
   (when the footprint or the image is a single pixel, `_get_peak_mask`
   instead returns `image > threshold` directly, and when the equality mask
   is all true it suppresses every peak: "no peak for a trivial image");
2. keeps pixels whose value is strictly greater than `threshold_abs`;
3. excludes peaks within `min_distance` of a border (`exclude_border`
   defaults to the `min_distance` value);
4. sorts the candidates by decreasing intensity (stable order) and greedily
   keeps each candidate whose Chebyshev distance (`p_norm=inf` default) to
   every already kept peak is at least `min_distance` (`ensure_spacing`
   drops only candidates strictly closer than the spacing, keeping points
   at exactly `min_distance`). -/

/-- Step 1: pixel `(x, y)` equals the maximum over the in-range part of its
`(2*md+1) × (2*md+1)` window. -/
def isPeakMask (g : Grid) (md : ℕ) (x y : ℕ) : Bool :=
  (List.range (2 * md + 1)).all fun (di : ℕ) =>
    (List.range (2 * md + 1)).all fun (dj : ℕ) =>
      let i : ℤ := (x : ℤ) + (di : ℤ) - (md : ℤ)
      let j : ℤ := (y : ℤ) + (dj : ℤ) - (md : ℤ)
      if 0 ≤ i ∧ i < (g.length : ℤ) ∧ 0 ≤ j ∧ j < ((g.getD 0 []).length : ℤ) then
        decide (gvalAt g i.toNat j.toNat ≤ gvalAt g x y)
      else
        true

/-- Step 3: `exclude_border = min_distance` — at least `md` pixels from
every border. -/
def borderOK (n m md x y : ℕ) : Bool :=
  decide (md ≤ x ∧ x + md < n ∧ md ≤ y ∧ y + md < m)

/-- All pixel coordinates of an `n × m` grid in row-major order. -/
def allCoords (n m : ℕ) : List Coord :=
  ((List.range n).map fun (x : ℕ) =>
    (List.range m).map fun (y : ℕ) => ((x, y) : Coord)).flatten

/-- Steps 1-3: the thresholded local-maximum mask away from the borders,
in row-major order.  `_get_peak_mask` returns `image > threshold` directly
when the footprint is one pixel (`min_distance = 0`) or the image is one
pixel; otherwise, when every pixel equals its window maximum (a constant
image) it returns the empty mask ("no peak for a trivial image"). -/
def maskCands (g : Grid) (md : ℕ) (t : ℚ) : List Coord :=
  if md = 0 ∨ gridCount g = 1 then
    (allCoords g.length ((g.getD 0 []).length)).filter fun c =>
      decide (t < gval g c) &&
        borderOK g.length ((g.getD 0 []).length) md c.1 c.2
  else if (allCoords g.length ((g.getD 0 []).length)).all fun c =>
      isPeakMask g md c.1 c.2 then
    []
  else
    (allCoords g.length ((g.getD 0 []).length)).filter fun c =>
      isPeakMask g md c.1 c.2 && decide (t < gval g c) &&
        borderOK g.length ((g.getD 0 []).length) md c.1 c.2

/-- Stable insertion for the sort by decreasing key: the new element goes
before the first strictly smaller key, after equal keys (the new element is
earlier in the original list than everything already inserted). -/
def insertDesc (key : Coord → ℚ) (x : Coord) : List Coord → List Coord
  | [] => [x]
  | y :: ys => if key x < key y then y :: insertDesc key x ys else x :: y :: ys

/-- Stable sort by decreasing key (`np.argsort(-intensities, kind="stable")`). -/
def sortDesc (key : Coord → ℚ) : List Coord → List Coord
  | [] => []
  | x :: xs => insertDesc key x (sortDesc key xs)

/-- Chebyshev distance between two pixel coordinates (`p_norm=inf`). -/
def chebDist (a b : Coord) : ℕ :=
  max ((a.1 : ℤ) - (b.1 : ℤ)).natAbs ((a.2 : ℤ) - (b.2 : ℤ)).natAbs

/-- Step 4, `ensure_spacing`: keep a candidate iff its distance to every
already kept peak is at least the spacing (skimage rejects only candidates
strictly closer than `spacing`, keeping points at exactly `min_distance`). -/
def ensureSpacing (md : ℕ) : List Coord → List Coord → List Coord
  | acc, [] => acc.reverse
  | acc, c :: rest =>
    if acc.all fun a => decide (md ≤ chebDist a c) then
      ensureSpacing md (c :: acc) rest
    else
      ensureSpacing md acc rest

/-- `peak_local_max(g, min_distance=md, threshold_abs=t)` with default
`exclude_border` and `p_norm`. -/
def peakLocalMax (g : Grid) (md : ℕ) (t : ℚ) : List Coord :=
  ensureSpacing md [] (sortDesc (gval g) (maskCands g md t))

/-! ## Sub-pixel refinement (final `convcirc`)

Source (final revision of `convcirc` in the notebook):
```
    fitmax = np.copy(max.astype(float))
    p = 2
    prange = np.arange(-p,p+1)
    for i in range(max.shape[0]):
        x0 = max[i,0]
        y0 = max[i,1]
        fitmax[i,0] = np.sum(np.dot(x0+prange, conv[x0-p:x0+p+1, y0]))/np.sum(conv[x0-p:x0+p+1, y0])
        fitmax[i,1] = np.sum(np.dot(y0+prange, conv[x0, y0-p:y0+p+1]))/np.sum(conv[x0, y0-p:y0+p+1])
    return (fitmax)
```
There is no bounds check: a Python slice with a negative start wraps around
(`conv[-1:4]` starts at index `n-1`), and a stop beyond the end is clamped,
so near a border the slice has fewer than `2p+1` entries and `np.dot` of the
`5`-element weight vector with it raises a shape-mismatch `ValueError`. -/

/-- Python semantics of one slice endpoint: a negative index counts from the
end (clamped below at `0`), a nonnegative one is clamped above at the
length. -/
def pyIdx (n : ℕ) (i : ℤ) : ℕ :=
  if i < 0 then (i + (n : ℤ)).toNat else min i.toNat n

/-- Python slice `l[a:b]`. -/
def pySlice (l : List ℚ) (a b : ℤ) : List ℚ :=
  (l.take (pyIdx l.length b)).drop (pyIdx l.length a)

/-- `x0 + np.arange(-p, p+1)` for `p = 2`, as rationals. -/
def prangeW (x0 : ℕ) : List ℚ :=
  [(x0 : ℚ) - 2, (x0 : ℚ) - 1, (x0 : ℚ), (x0 : ℚ) + 1, (x0 : ℚ) + 2]

/-- `np.dot` of two 1-D arrays (the length check is in `refineAxis`). -/
def dotProd : List ℚ → List ℚ → ℚ
  | a :: as, b :: bs => a * b + dotProd as bs
  | _, _ => 0

/-- One axis of the weighted-average refinement:
`np.sum(np.dot(x0+prange, vals))/np.sum(vals)`.  `np.dot` raises a
shape-mismatch `ValueError` unless the slice has all `2p+1 = 5` entries.
(For a full slice whose sum is zero, numpy produces `nan` with a warning
where `ℚ` division yields `0`; in both semantics an `.ok` value is
returned.) -/
def refineAxis (x0 : ℕ) (vals : List ℚ) : Except String ℚ :=
  if vals.length = 5 then .ok (dotProd (prangeW x0) vals / vals.sum)
  else .error "shapes not aligned"

/-- Refine one peak: the column slice `conv[x0-p:x0+p+1, y0]`, then the row
slice `conv[x0, y0-p:y0+p+1]`, `p = 2`. -/
def refinePeak (g : Grid) (c : Coord) : Except String (ℚ × ℚ) := do
  let fx ← refineAxis c.1
    (pySlice (g.map fun row => row.getD c.2 0) ((c.1 : ℤ) - 2) ((c.1 : ℤ) + 3))
  let fy ← refineAxis c.2
    (pySlice (g.getD c.1 []) ((c.2 : ℤ) - 2) ((c.2 : ℤ) + 3))
  return (fx, fy)

/-- The refinement loop over all peaks. -/
def refinePeaks (g : Grid) : List Coord → Except String (List (ℚ × ℚ))
  | [] => .ok []
  | c :: cs => do
    let r ← refinePeak g c
    let rs ← refinePeaks g cs
    return (r :: rs)

/-- The final `convcirc(image, R, w, thresh)` of the notebook: build the
ring kernel, convolve and normalize, extract peaks, refine them. -/
def convcirc (image : Grid) (R w thresh : ℚ) : Except String (List (ℚ × ℚ)) := do
  let kc ← circkernel R w
  let conv := correlateNorm image kc.1
  refinePeaks conv (peakLocalMax conv (Int.ceil R).toNat thresh)

/-- A 5 × 5 test correlation map whose only candidate peak at
`min_distance = 2`, `threshold = 8` is `(2, 2)`.  (Scaling every entry by a
common positive factor changes neither the extracted peaks nor the refined
coordinates, so the integer entries stand for a normalized map scaled by
`10`.) -/
def conv5 : Grid :=
  [[-9, -9, 9, -9, -9],
   [-9, -9, -9, -9, -9],
   [-9, -9, 10, -9, -9],
   [-9, -9, -9, -9, -9],
   [-9, -9, 0, -9, -9]]

/-- A 6 × 6 test correlation map with a bright pixel at `(1, 2)`, one pixel
from the top border. -/
def conv6 : Grid :=
  [[1, 1, 1, 1, 1, 1],
   [1, 1, 10, 1, 1, 1],
   [1, 1, 1, 1, 1, 1],
   [1, 1, 1, 1, 1, 1],
   [1, 1, 1, 1, 1, 1],
   [1, 1, 1, 1, 1, 1]]

/-! ## C2: the weighted centroid can leave the refinement window -/

/-- Counterexample to claim C2: the candidate peak `(2, 2)` of `conv5`
(extracted by `peak_local_max` with `min_distance = 2`, threshold `8`) is
refined to row coordinate `-16`: the window holds negative correlation
values, so the intensity-weighted average is not a convex combination and
moves `|-16 - 2| = 18 > 2` pixels, far beyond the half-window `p = 2`. -/
theorem refine_exceeds_window :
    peakLocalMax conv5 2 8 = [(2, 2)] ∧
    refinePeaks conv5 [(2, 2)] = .ok [(-16, 2)] ∧
    ¬ (|(-16 : ℚ) - (2 : ℚ)| ≤ 2) := by
  refine ⟨by decide, ?_, ?_⟩
  · have hfx : refineAxis 2 (pySlice (conv5.map fun row => row.getD 2 0)
        (((2 : ℕ) : ℤ) - 2) (((2 : ℕ) : ℤ) + 3)) = .ok (-16) := by
      have hslice : pySlice (conv5.map fun row => row.getD 2 0)
          (((2 : ℕ) : ℤ) - 2) (((2 : ℕ) : ℤ) + 3) = [9, -9, 10, -9, 0] := by decide
      rw [hslice, refineAxis, if_pos (by decide)]
      norm_num [dotProd, prangeW]
    have hfy : refineAxis 2 (pySlice (conv5.getD 2 [])
        (((2 : ℕ) : ℤ) - 2) (((2 : ℕ) : ℤ) + 3)) = .ok 2 := by
      have hslice : pySlice (conv5.getD 2 [])
          (((2 : ℕ) : ℤ) - 2) (((2 : ℕ) : ℤ) + 3) = [-9, -9, 10, -9, -9] := by decide
      rw [hslice, refineAxis, if_pos (by decide)]
      norm_num [dotProd, prangeW]
    simp only [refinePeaks, refinePeak]
    rw [hfx, hfy]
    rfl
  · rw [show ((-16 : ℚ) - 2) = -18 by norm_num, abs_neg,
      abs_of_pos (by norm_num : (0 : ℚ) < 18)]
    norm_num

/-- Claim C2 (amended): the weighted-centroid refinement moves a peak by at
most the half-window `p = 2` on an axis provided the five window values on
that axis are nonnegative with positive sum (a convex combination); with
negative correlation values in the window — which the zero-mean ring kernel
produces — the refined coordinate can leave the window by an arbitrary
amount. -/
theorem refineAxis_bounded_of_nonneg (x0 : ℕ) (vals : List ℚ)
    (hlen : vals.length = 5) (hpos : ∀ v ∈ vals, 0 ≤ v) (hsum : 0 < vals.sum) :
    ∃ r, refineAxis x0 vals = .ok r ∧ |r - (x0 : ℚ)| ≤ 2 := by
  rcases vals with _ | ⟨a, vals⟩
  · simp at hlen
  rcases vals with _ | ⟨b, vals⟩
  · simp at hlen
  rcases vals with _ | ⟨c, vals⟩
  · simp at hlen
  rcases vals with _ | ⟨d, vals⟩
  · simp at hlen
  rcases vals with _ | ⟨e, vals⟩
  · simp at hlen
  rcases vals with _ | ⟨f, vals⟩
  swap
  · simp at hlen
  have ha : 0 ≤ a := hpos a (by simp)
  have hb : 0 ≤ b := hpos b (by simp)
  have hc : 0 ≤ c := hpos c (by simp)
  have hd : 0 ≤ d := hpos d (by simp)
  have he : 0 ≤ e := hpos e (by simp)
  simp only [List.sum_cons, List.sum_nil, add_zero] at hsum
  have hs : a + (b + (c + (d + e))) ≠ 0 := ne_of_gt hsum
  rw [refineAxis, if_pos (by simp)]
  refine ⟨_, rfl, ?_⟩
  have hkey : dotProd (prangeW x0) [a, b, c, d, e] / ([a, b, c, d, e] : List ℚ).sum
      - (x0 : ℚ) = (-2 * a - b + d + 2 * e) / (a + (b + (c + (d + e)))) := by
    simp only [dotProd, prangeW, List.sum_cons, List.sum_nil, add_zero]
    field_simp
    ring
  rw [hkey, abs_div, abs_of_pos hsum, div_le_iff₀ hsum, abs_le]
  constructor
  · linarith
  · linarith

/-- Witness for the amended C2 at `x0 = 3` and the all-ones window. -/
theorem refineAxis_bounded_of_nonneg_witness :
    (([1, 1, 1, 1, 1] : List ℚ).length = 5 ∧
      (∀ v ∈ ([1, 1, 1, 1, 1] : List ℚ), 0 ≤ v) ∧
      (0 : ℚ) < ([1, 1, 1, 1, 1] : List ℚ).sum) ∧
    ∃ r, refineAxis 3 [1, 1, 1, 1, 1] = .ok r ∧ |r - (3 : ℚ)| ≤ 2 := by
  have h1 : (([1, 1, 1, 1, 1] : List ℚ)).length = 5 := rfl
  have h2 : ∀ v ∈ ([1, 1, 1, 1, 1] : List ℚ), 0 ≤ v := by decide
  have h3 : (0 : ℚ) < ([1, 1, 1, 1, 1] : List ℚ).sum := by
    norm_num [List.sum_cons]
  exact ⟨⟨h1, h2, h3⟩, refineAxis_bounded_of_nonneg 3 _ h1 h2 h3⟩

/-! ## C10: behaviour of the refinement near the borders -/

/-- Counterexample to claim C10: a candidate peak within `p = 2` pixels of
the border does not get a refined coordinate computed from a truncated or
wrapped window — `np.dot` raises a shape-mismatch error instead, aborting
the whole refinement.  `(1, 2)` is the peak `peak_local_max` extracts from
`conv6` with `min_distance = 1` (possible only when the minimum distance is
below `p`, since the border exclusion is `min_distance`); its column window
`conv[-1:4, 2]` wraps to an empty slice, and the result is the error, not a
`nan` coordinate. -/
theorem refine_border_peak_errors :
    peakLocalMax conv6 1 5 = [(1, 2)] ∧
    refinePeaks conv6 [(1, 2)] = .error "shapes not aligned" := by
  constructor
  · decide
  · decide

theorem mem_insertDesc (key : Coord → ℚ) (x c : Coord) (l : List Coord) :
    c ∈ insertDesc key x l ↔ c = x ∨ c ∈ l := by
  induction l with
  | nil => simp [insertDesc]
  | cons y ys ih =>
    rw [insertDesc]
    by_cases h : key x < key y
    · rw [if_pos h]
      simp only [List.mem_cons, ih]
      tauto
    · rw [if_neg h]
      simp only [List.mem_cons]

theorem mem_sortDesc (key : Coord → ℚ) (c : Coord) (l : List Coord) :
    c ∈ sortDesc key l ↔ c ∈ l := by
  induction l with
  | nil => simp [sortDesc]
  | cons x xs ih =>
    rw [sortDesc, mem_insertDesc]
    simp [ih]

theorem mem_ensureSpacing (md : ℕ) (c : Coord) :
    ∀ l acc, c ∈ ensureSpacing md acc l → c ∈ acc ∨ c ∈ l := by
  intro l
  induction l with
  | nil =>
    intro acc h
    rw [ensureSpacing] at h
    exact Or.inl (List.mem_reverse.mp h)
  | cons x xs ih =>
    intro acc h
    rw [ensureSpacing] at h
    by_cases hcond : (acc.all fun a => decide (md ≤ chebDist a x)) = true
    · rw [if_pos hcond] at h
      rcases ih (x :: acc) h with h1 | h1
      · rcases List.mem_cons.mp h1 with h2 | h2
        · exact Or.inr (by simp [h2])
        · exact Or.inl h2
      · exact Or.inr (by simp [h1])
    · rw [if_neg hcond] at h
      rcases ih acc h with h1 | h1
      · exact Or.inl h1
      · exact Or.inr (by simp [h1])

theorem mem_maskCands (g : Grid) (md : ℕ) (t : ℚ) (c : Coord)
    (h : c ∈ maskCands g md t) :
    md ≤ c.1 ∧ c.1 + md < g.length ∧ md ≤ c.2 ∧ c.2 + md < (g.getD 0 []).length := by
  rw [maskCands] at h
  by_cases h1 : md = 0 ∨ gridCount g = 1
  · rw [if_pos h1] at h
    have h2 := (List.mem_filter.mp h).2
    simp only [Bool.and_eq_true, borderOK, decide_eq_true_eq] at h2
    exact h2.2
  · rw [if_neg h1] at h
    by_cases h2 : ((allCoords g.length ((g.getD 0 []).length)).all fun c =>
        isPeakMask g md c.1 c.2) = true
    · rw [if_pos h2] at h
      simp at h
    · rw [if_neg h2] at h
      have h3 := (List.mem_filter.mp h).2
      simp only [Bool.and_eq_true, borderOK, decide_eq_true_eq] at h3
      exact h3.2

theorem mem_peakLocalMax (g : Grid) (md : ℕ) (t : ℚ) (c : Coord)
    (h : c ∈ peakLocalMax g md t) :
    md ≤ c.1 ∧ c.1 + md < g.length ∧ md ≤ c.2 ∧ c.2 + md < (g.getD 0 []).length := by
  rw [peakLocalMax] at h
  rcases mem_ensureSpacing md c _ [] h with h1 | h1
  · simp at h1
  · exact mem_maskCands g md t c ((mem_sortDesc _ _ _).mp h1)

theorem pySlice_length_window (l : List ℚ) (x : ℕ) (h2 : 2 ≤ x)
    (h3 : x + 3 ≤ l.length) :
    (pySlice l ((x : ℤ) - 2) ((x : ℤ) + 3)).length = 5 := by
  rw [pySlice, pyIdx, pyIdx, if_neg (by omega), if_neg (by omega)]
  have e1 : ((x : ℤ) + 3).toNat = x + 3 := by omega
  have e2 : ((x : ℤ) - 2).toNat = x - 2 := by omega
  rw [e1, e2, List.length_drop, List.length_take]
  omega

theorem refinePeak_ok (g : Grid) (m : ℕ)
    (hrect : ∀ row ∈ g, row.length = m) (c : Coord)
    (h1 : 2 ≤ c.1) (h2 : c.1 + 2 < g.length) (h3 : 2 ≤ c.2) (h4 : c.2 + 2 < m) :
    ∃ v, refinePeak g c = .ok v := by
  have hx : (pySlice (g.map fun row => row.getD c.2 0)
      ((c.1 : ℤ) - 2) ((c.1 : ℤ) + 3)).length = 5 := by
    apply pySlice_length_window _ _ h1
    rw [List.length_map]
    omega
  have hrow : (g.getD c.1 []).length = m := by
    have hlt : c.1 < g.length := by omega
    rw [List.getD_eq_getElem _ _ hlt]
    exact hrect _ (List.getElem_mem hlt)
  have hy : (pySlice (g.getD c.1 [])
      ((c.2 : ℤ) - 2) ((c.2 : ℤ) + 3)).length = 5 := by
    apply pySlice_length_window _ _ h3
    rw [hrow]
    omega
  obtain ⟨fx, hfx⟩ : ∃ fx, refineAxis c.1 (pySlice (g.map fun row => row.getD c.2 0)
      ((c.1 : ℤ) - 2) ((c.1 : ℤ) + 3)) = .ok fx := ⟨_, by rw [refineAxis, if_pos hx]⟩
  obtain ⟨fy, hfy⟩ : ∃ fy, refineAxis c.2 (pySlice (g.getD c.1 [])
      ((c.2 : ℤ) - 2) ((c.2 : ℤ) + 3)) = .ok fy := ⟨_, by rw [refineAxis, if_pos hy]⟩
  refine ⟨(fx, fy), ?_⟩
  simp only [refinePeak]
  rw [hfx, hfy]
  rfl

theorem refinePeaks_ok (g : Grid) :
    ∀ ps : List Coord, (∀ c ∈ ps, ∃ v, refinePeak g c = .ok v) →
      ∃ r, refinePeaks g ps = .ok r := by
  intro ps
  induction ps with
  | nil => exact fun _ => ⟨[], rfl⟩
  | cons c cs ih =>
    intro h
    obtain ⟨v, hv⟩ := h c (by simp)
    obtain ⟨r, hr⟩ := ih (fun d hd => h d (by simp [hd]))
    refine ⟨v :: r, ?_⟩
    simp only [refinePeaks]
    rw [hv, hr]
    rfl

/-- Claim C10 (amended): the refinement reads `conv[x0-p:x0+p+1, ...]` with
no bounds check of its own, and near a border the wrapped/truncated slice
makes `np.dot` raise a shape-mismatch error (no refined coordinate is
produced).  But `peak_local_max` already excludes all peaks within
`min_distance` of a border, so whenever `min_distance ≥ p = 2` — which holds
in `convcirc` for every `R > 1` — every window of every extracted peak lies
fully inside the map and the refinement loop succeeds. -/
theorem refine_windows_safe (g : Grid) (md : ℕ) (t : ℚ)
    (hrect : ∀ row ∈ g, row.length = (g.getD 0 []).length) (hmd : 2 ≤ md) :
    ∃ r, refinePeaks g (peakLocalMax g md t) = .ok r := by
  apply refinePeaks_ok
  intro c hc
  have hb := mem_peakLocalMax g md t c hc
  exact refinePeak_ok g _ hrect c (by omega) (by omega) (by omega) (by omega)

/-- Witness for the amended C10 on `conv5` with `min_distance = 2`. -/
theorem refine_windows_safe_witness :
    (∀ row ∈ conv5, row.length = (conv5.getD 0 []).length) ∧ 2 ≤ 2 ∧
    ∃ r, refinePeaks conv5 (peakLocalMax conv5 2 8) = .ok r := by
  have h1 : ∀ row ∈ conv5, row.length = (conv5.getD 0 []).length := by decide
  exact ⟨h1, le_refl 2, refine_windows_safe conv5 2 8 h1 (le_refl 2)⟩

/-! ## C7: peak count is antitone in the threshold

The candidate mask is a filter by `value > threshold`; on the
stably-sorted-by-decreasing-value candidate list this filter keeps an
initial segment, and the greedy `ensure_spacing` pass over a longer
candidate list never keeps fewer peaks than over a prefix of it. -/

theorem pairwise_insertDesc (key : Coord → ℚ) (x : Coord) :
    ∀ l : List Coord, l.Pairwise (fun a b => key b ≤ key a) →
      (insertDesc key x l).Pairwise (fun a b => key b ≤ key a) := by
  intro l
  induction l with
  | nil => intro _; simp [insertDesc]
  | cons y ys ih =>
    intro hp
    rw [List.pairwise_cons] at hp
    obtain ⟨hy, hys⟩ := hp
    rw [insertDesc]
    by_cases hxy : key x < key y
    · rw [if_pos hxy, List.pairwise_cons]
      refine ⟨?_, ih hys⟩
      intro z hz
      rcases (mem_insertDesc key x z ys).mp hz with h1 | h1
      · exact h1 ▸ le_of_lt hxy
      · exact hy z h1
    · rw [if_neg hxy, List.pairwise_cons]
      refine ⟨?_, ?_⟩
      · intro z hz
        rcases List.mem_cons.mp hz with h1 | h1
        · exact h1 ▸ le_of_not_lt hxy
        · exact le_trans (hy z h1) (le_of_not_lt hxy)
      · rw [List.pairwise_cons]
        exact ⟨hy, hys⟩

theorem pairwise_sortDesc (key : Coord → ℚ) :
    ∀ l : List Coord, (sortDesc key l).Pairwise (fun a b => key b ≤ key a) := by
  intro l
  induction l with
  | nil => simp [sortDesc]
  | cons x xs ih => exact pairwise_insertDesc key x _ ih

theorem filter_insertDesc_of_neg (key : Coord → ℚ) (P : Coord → Bool) (x : Coord)
    (hx : P x = false) :
    ∀ l : List Coord, (insertDesc key x l).filter P = l.filter P := by
  intro l
  induction l with
  | nil => simp [insertDesc, hx]
  | cons y ys ih =>
    rw [insertDesc]
    by_cases hxy : key x < key y
    · rw [if_pos hxy, List.filter_cons, List.filter_cons, ih]
    · rw [if_neg hxy, List.filter_cons, hx]
      simp

theorem insertDesc_eq_cons (key : Coord → ℚ) (x : Coord) (l : List Coord)
    (h : ∀ z ∈ l, ¬ key x < key z) : insertDesc key x l = x :: l := by
  cases l with
  | nil => rfl
  | cons y ys => rw [insertDesc, if_neg (h y (by simp))]

theorem filter_insertDesc_of_pos (key : Coord → ℚ) (P : Coord → Bool)
    (hup : ∀ a b, P a = true → key a ≤ key b → P b = true) (x : Coord)
    (hx : P x = true) :
    ∀ l : List Coord, l.Pairwise (fun a b => key b ≤ key a) →
      (insertDesc key x l).filter P = insertDesc key x (l.filter P) := by
  intro l
  induction l with
  | nil => intro _; simp [insertDesc, hx]
  | cons y ys ih =>
    intro hp
    rw [List.pairwise_cons] at hp
    obtain ⟨hy, hys⟩ := hp
    rw [insertDesc]
    by_cases hxy : key x < key y
    · have hPy : P y = true := hup x y hx (le_of_lt hxy)
      rw [if_pos hxy]
      have hfL : List.filter P (y :: insertDesc key x ys) =
          y :: List.filter P (insertDesc key x ys) := by
        rw [List.filter_cons, if_pos hPy]
      have hfy : List.filter P (y :: ys) = y :: List.filter P ys := by
        rw [List.filter_cons, if_pos hPy]
      rw [hfL, ih hys, hfy, insertDesc, if_pos hxy]
    · rw [if_neg hxy]
      have hfx : List.filter P (x :: y :: ys) = x :: List.filter P (y :: ys) := by
        rw [List.filter_cons, if_pos hx]
      rw [hfx]
      by_cases hPy : P y = true
      · have hfy : List.filter P (y :: ys) = y :: List.filter P ys := by
          rw [List.filter_cons, if_pos hPy]
        rw [hfy, insertDesc, if_neg hxy]
      · have hfy : List.filter P (y :: ys) = List.filter P ys := by
          rw [List.filter_cons, if_neg hPy]
        rw [hfy, insertDesc_eq_cons key x (ys.filter P) ?_]
        intro z hz
        have hzy : key z ≤ key y := hy z (List.mem_of_mem_filter hz)
        exact not_lt.mpr (le_trans hzy (le_of_not_lt hxy))

theorem sortDesc_filter_comm (key : Coord → ℚ) (P : Coord → Bool)
    (hup : ∀ a b, P a = true → key a ≤ key b → P b = true) :
    ∀ l : List Coord, sortDesc key (l.filter P) = (sortDesc key l).filter P := by
  intro l
  induction l with
  | nil => rfl
  | cons x xs ih =>
    rw [List.filter_cons, sortDesc]
    by_cases hx : P x = true
    · rw [hx]
      simp only [cond_true, ite_true]
      rw [sortDesc, ih,
        filter_insertDesc_of_pos key P hup x hx _ (pairwise_sortDesc key xs)]
    · have hx' : P x = false := Bool.eq_false_iff.mpr hx
      rw [hx']
      simp only [cond_false, Bool.false_eq_true, if_false]
      rw [ih, filter_insertDesc_of_neg key P x hx']

theorem filter_filter_subsume (P1 P2 : Coord → Bool)
    (himp : ∀ c, P2 c = true → P1 c = true) :
    ∀ l : List Coord, (l.filter P1).filter P2 = l.filter P2 := by
  intro l
  induction l with
  | nil => rfl
  | cons c cs ih =>
    by_cases h2 : P2 c = true
    · have h1 : P1 c = true := himp c h2
      rw [List.filter_cons, h1, List.filter_cons, h2]
      simp only [cond_true, ite_true]
      rw [List.filter_cons, h2]
      simp only [cond_true, ite_true]
      rw [ih]
    · have h2' : P2 c = false := Bool.eq_false_iff.mpr h2
      cases h1 : P1 c with
      | true =>
        rw [List.filter_cons, h1]
        simp only [cond_true, ite_true]
        rw [List.filter_cons, h2', List.filter_cons, h2']
        simp only [cond_false, Bool.false_eq_true, if_false]
        exact ih
      | false =>
        rw [List.filter_cons, h1]
        simp only [cond_false, Bool.false_eq_true, if_false]
        rw [List.filter_cons, h2']
        simp only [cond_false, Bool.false_eq_true, if_false]
        exact ih

theorem filter_eq_takeWhile_of_sorted (key : Coord → ℚ) (P : Coord → Bool)
    (hdown : ∀ a b, key b ≤ key a → P a = false → P b = false) :
    ∀ l : List Coord, l.Pairwise (fun a b => key b ≤ key a) →
      l.filter P = l.takeWhile P := by
  intro l
  induction l with
  | nil => intro _; rfl
  | cons x xs ih =>
    intro hp
    rw [List.pairwise_cons] at hp
    obtain ⟨hx', hxs⟩ := hp
    cases hPx : P x with
    | true =>
      rw [List.filter_cons, hPx, List.takeWhile_cons, hPx]
      simp only [cond_true, ite_true]
      rw [ih hxs]
    | false =>
      rw [List.filter_cons, hPx, List.takeWhile_cons, hPx]
      simp only [cond_false, Bool.false_eq_true, if_false]
      rw [List.filter_eq_nil_iff.mpr]
      intro z hz
      rw [hdown x z (hx' z hz) hPx]
      simp

theorem ensureSpacing_length_ge (md : ℕ) :
    ∀ (l acc : List Coord), acc.length ≤ (ensureSpacing md acc l).length := by
  intro l
  induction l with
  | nil =>
    intro acc
    rw [ensureSpacing, List.length_reverse]
  | cons x xs ih =>
    intro acc
    rw [ensureSpacing]
    by_cases hcond : (acc.all fun a => decide (md ≤ chebDist a x)) = true
    · rw [if_pos hcond]
      calc acc.length ≤ (x :: acc).length := by simp
        _ ≤ _ := ih (x :: acc)
    · rw [if_neg hcond]
      exact ih acc

theorem ensureSpacing_length_append (md : ℕ) :
    ∀ (l r acc : List Coord),
      (ensureSpacing md acc l).length ≤ (ensureSpacing md acc (l ++ r)).length := by
  intro l
  induction l with
  | nil =>
    intro r acc
    rw [ensureSpacing, List.nil_append, List.length_reverse]
    exact ensureSpacing_length_ge md r acc
  | cons x xs ih =>
    intro r acc
    rw [List.cons_append, ensureSpacing, ensureSpacing]
    by_cases hcond : (acc.all fun a => decide (md ≤ chebDist a x)) = true
    · rw [if_pos hcond, if_pos hcond]
      exact ih r (x :: acc)
    · rw [if_neg hcond, if_neg hcond]
      exact ih r acc

theorem filter_and_decomp (p q : Coord → Bool) :
    ∀ l : List Coord, l.filter (fun c => p c && q c) = (l.filter p).filter q := by
  intro l
  induction l with
  | nil => rfl
  | cons c cs ih => cases hp : p c <;> cases hq : q c <;>
      simp [List.filter_cons, hp, hq, ih]

theorem filter_mask_decomp (g : Grid) (n m md : ℕ) (t : ℚ) (l : List Coord) :
    (l.filter fun c => isPeakMask g md c.1 c.2 && decide (t < gval g c) &&
        borderOK n m md c.1 c.2) =
      ((l.filter fun c => isPeakMask g md c.1 c.2 && borderOK n m md c.1 c.2).filter
        fun c => decide (t < gval g c)) := by
  rw [← filter_and_decomp]
  apply List.filter_congr
  intro c _
  cases h1 : isPeakMask g md c.1 c.2 <;>
    cases h2 : borderOK n m md c.1 c.2 <;>
      cases h3 : decide (t < gval g c) <;> rfl

theorem filter_thresh_border_decomp (g : Grid) (n m md : ℕ) (t : ℚ) (l : List Coord) :
    (l.filter fun c => decide (t < gval g c) && borderOK n m md c.1 c.2) =
      ((l.filter fun c => borderOK n m md c.1 c.2).filter
        fun c => decide (t < gval g c)) := by
  rw [← filter_and_decomp]
  apply List.filter_congr
  intro c _
  cases h1 : borderOK n m md c.1 c.2 <;> cases h2 : decide (t < gval g c) <;> rfl

theorem count_antitone_core (g : Grid) (md : ℕ) (base : List Coord) (t1 t2 : ℚ)
    (h : t1 ≤ t2) :
    (ensureSpacing md [] (sortDesc (gval g)
        (base.filter fun c => decide (t2 < gval g c)))).length ≤
      (ensureSpacing md [] (sortDesc (gval g)
        (base.filter fun c => decide (t1 < gval g c)))).length := by
  have hup : ∀ t : ℚ, ∀ a b : Coord, decide (t < gval g a) = true →
      gval g a ≤ gval g b → decide (t < gval g b) = true := by
    intro t a b ha hab
    rw [decide_eq_true_eq] at ha ⊢
    linarith
  have hsort : ∀ t : ℚ, sortDesc (gval g) (base.filter fun c => decide (t < gval g c)) =
      (sortDesc (gval g) base).filter fun c => decide (t < gval g c) :=
    fun t => sortDesc_filter_comm (gval g) _ (hup t) base
  rw [hsort t1, hsort t2]
  set S := sortDesc (gval g) base with hS
  have hSpair : S.Pairwise (fun a b => gval g b ≤ gval g a) :=
    pairwise_sortDesc (gval g) _
  have hsub : (S.filter fun c => decide (t2 < gval g c)) =
      ((S.filter fun c => decide (t1 < gval g c)).filter
        fun c => decide (t2 < gval g c)) := by
    rw [filter_filter_subsume _ _ ?_ S]
    intro c hc
    rw [decide_eq_true_eq] at hc ⊢
    linarith
  have htake : ((S.filter fun c => decide (t1 < gval g c)).filter
      fun c => decide (t2 < gval g c)) =
      ((S.filter fun c => decide (t1 < gval g c)).takeWhile
        fun c => decide (t2 < gval g c)) := by
    apply filter_eq_takeWhile_of_sorted (gval g) _ ?_ _ (hSpair.filter _)
    intro a b hab ha
    rw [Bool.eq_false_iff, ne_eq, decide_eq_true_eq] at ha ⊢
    intro hb
    exact ha (lt_of_lt_of_le hb hab)
  rw [hsub, htake]
  calc (ensureSpacing md [] ((S.filter fun c => decide (t1 < gval g c)).takeWhile
          fun c => decide (t2 < gval g c))).length
      ≤ (ensureSpacing md [] (((S.filter fun c => decide (t1 < gval g c)).takeWhile
            fun c => decide (t2 < gval g c)) ++
          ((S.filter fun c => decide (t1 < gval g c)).dropWhile
            fun c => decide (t2 < gval g c)))).length :=
        ensureSpacing_length_append md _ _ []
    _ = (ensureSpacing md [] (S.filter fun c => decide (t1 < gval g c))).length := by
        rw [List.takeWhile_append_dropWhile]

/-- Claim C7: for a fixed correlation map and kernel radius, the number of
peaks returned by `peak_local_max` is antitone in the threshold: raising
`threshold_abs` never increases the number of detected peaks.  The branch
`peak_local_max` takes (single-pixel footprint or image, trivial all-true
mask, or the general mask) does not depend on the threshold, and in each
branch the threshold only filters the candidate list fed to the stable sort
and the greedy spacing pass. -/
theorem peak_count_antitone (g : Grid) (md : ℕ) (t1 t2 : ℚ) (h : t1 ≤ t2) :
    (peakLocalMax g md t2).length ≤ (peakLocalMax g md t1).length := by
  rw [peakLocalMax, peakLocalMax, maskCands, maskCands]
  by_cases h1 : md = 0 ∨ gridCount g = 1
  · rw [if_pos h1, if_pos h1,
      filter_thresh_border_decomp g g.length ((g.getD 0 []).length) md t1,
      filter_thresh_border_decomp g g.length ((g.getD 0 []).length) md t2]
    exact count_antitone_core g md _ t1 t2 h
  · rw [if_neg h1, if_neg h1]
    by_cases h2 : ((allCoords g.length ((g.getD 0 []).length)).all fun c =>
        isPeakMask g md c.1 c.2) = true
    · rw [if_pos h2, if_pos h2]
    · rw [if_neg h2, if_neg h2,
        filter_mask_decomp g g.length ((g.getD 0 []).length) md t1,
        filter_mask_decomp g g.length ((g.getD 0 []).length) md t2]
      exact count_antitone_core g md _ t1 t2 h

/-- Witness for C7 on `conv5`: thresholds `8 ≤ 11`. -/
theorem peak_count_antitone_witness :
    (8 : ℚ) ≤ 11 ∧
    (peakLocalMax conv5 2 11).length ≤ (peakLocalMax conv5 2 8).length :=
  ⟨by norm_num, peak_count_antitone conv5 2 8 11 (by norm_num)⟩

end GranImage
